import Mathlib

/-!
Verification development for the research-assistant pipeline.

The Python sources are shallowly embedded below: `SearchAgent.search_and_gather`
result deduplication, `WebSearchTool.search` live/offline mode switching,
`get_demo_results` offline lookup, `SearchAgent.generate_search_queries`,
`TextProcessor.extract_keywords` / `extract_key_points`, and
`AnalyzerAgent._synthesize_insights` / `analyze_sources` (demo mode).
-/

open List

/-- A web search result: the `title` / `url` / `snippet` dictionary produced by
`WebSearchTool.search` and consumed by the agents. -/
structure SearchResult where
  title : String
  url : String
  snippet : String
deriving DecidableEq, Repr

/-- The duplicate-removal loop of `SearchAgent.search_and_gather`
(search_agent.py, lines 139-145): walk the concatenated results keeping a
`seen_urls` set, append a result only when its url was not seen before. -/
def search_and_gather_dedup : List SearchResult → List String → List SearchResult
  | [], _ => []
  | r :: rs, seen =>
    if r.url ∈ seen then search_and_gather_dedup rs seen
    else r :: search_and_gather_dedup rs (r.url :: seen)

/-- First-occurrence deduplication along a key: keep an element and drop every
later element that shares its key.  Reference form used in the proofs about
`search_and_gather_dedup` and about the keyword frequency table. -/
def keepFirstBy {α κ : Type} [DecidableEq κ] (key : α → κ) : List α → List α
  | [] => []
  | x :: xs => x :: keepFirstBy key (xs.filter (fun y => key y ≠ key x))
termination_by l => l.length
decreasing_by
  simp only [List.length_cons]
  exact Nat.lt_succ_of_le (List.length_filter_le _ _)

theorem keepFirstBy_sublist {α κ : Type} [DecidableEq κ] (key : α → κ) :
    ∀ l : List α, keepFirstBy key l <+ l := by
  intro l
  induction l using keepFirstBy.induct key with
  | case1 => simp [keepFirstBy]
  | case2 x xs ih =>
    rw [keepFirstBy]
    exact (ih.trans (List.filter_sublist xs)).cons₂ x

theorem keepFirstBy_mem_key {α κ : Type} [DecidableEq κ] (key : α → κ) :
    ∀ l : List α, ∀ a ∈ l, key a ∈ (keepFirstBy key l).map key := by
  intro l
  induction l using keepFirstBy.induct key with
  | case1 => simp
  | case2 x xs ih =>
    intro a ha
    rw [keepFirstBy]
    rcases List.mem_cons.mp ha with h | h
    · simp [h]
    · by_cases hk : key a = key x
      · simp [hk]
      · have : a ∈ xs.filter (fun y => key y ≠ key x) := by
          simp [List.mem_filter, h, hk]
        simpa using Or.inr (ih a this)

theorem keepFirstBy_nodup_key {α κ : Type} [DecidableEq κ] (key : α → κ) :
    ∀ l : List α, ((keepFirstBy key l).map key).Nodup := by
  intro l
  induction l using keepFirstBy.induct key with
  | case1 => simp [keepFirstBy]
  | case2 x xs ih =>
    rw [keepFirstBy]
    refine List.nodup_cons.mpr ⟨?_, ih⟩
    intro hmem
    rcases List.mem_map.mp hmem with ⟨a, ha, hkey⟩
    have ha' := (keepFirstBy_sublist key _).subset ha
    have := (List.mem_filter.mp ha').2
    simp only [ne_eq, decide_not, Bool.not_eq_true', decide_eq_false_iff_not] at this
    exact this hkey

/-- If every element satisfying `p` also satisfies `q`, finding the first
`p`-element in `l.filter q` is the same as finding it in `l`. -/
theorem find?_filter_of_imp {α : Type} (p q : α → Bool)
    (himp : ∀ a, p a = true → q a = true) :
    ∀ l : List α, (l.filter q).find? p = l.find? p := by
  intro l
  induction l with
  | nil => rfl
  | cons a l ih =>
    by_cases hp : p a = true
    · have hq := himp a hp
      simp [List.filter_cons, hq, List.find?, hp]
    · have hp' : p a = false := by simpa using hp
      by_cases hq : q a = true
      · simp [List.filter_cons, hq, List.find?, hp', ih]
      · have hq' : q a = false := by simpa using hq
        simp [List.filter_cons, hq', List.find?, hp', ih]

theorem keepFirstBy_find? {α κ : Type} [DecidableEq κ] (key : α → κ) :
    ∀ l : List α, ∀ a ∈ keepFirstBy key l,
      l.find? (fun y => decide (key y = key a)) = some a := by
  intro l
  induction l using keepFirstBy.induct key with
  | case1 => simp [keepFirstBy]
  | case2 x xs ih =>
    intro a ha
    rw [keepFirstBy] at ha
    rcases List.mem_cons.mp ha with h | h
    · subst h
      simp [List.find?]
    · have hmem : a ∈ xs.filter (fun y => key y ≠ key x) :=
        (keepFirstBy_sublist key _).subset h
      have hne : key a ≠ key x := by
        have := (List.mem_filter.mp hmem).2
        simpa using this
      have hrec := ih a h
      have himp : ∀ y, (fun y => decide (key y = key a)) y = true →
          (fun y => decide (key y ≠ key x)) y = true := by
        intro y hy
        simp only [decide_eq_true_eq] at hy
        simp only [ne_eq, decide_eq_true_eq]
        rw [hy]
        exact fun h' => hne h'
      have hlift := find?_filter_of_imp (fun y => decide (key y = key a))
        (fun y => decide (key y ≠ key x)) himp xs
      rw [List.find?]
      have hx : (decide (key x = key a)) = false :=
        decide_eq_false (fun h' => hne h'.symm)
      rw [hx, ← hlift]
      exact hrec

/-- Bridge: the seen-set loop of `search_and_gather` computes first-occurrence
deduplication by url. -/
theorem search_and_gather_dedup_eq (rs : List SearchResult) (seen : List String) :
    search_and_gather_dedup rs seen =
      keepFirstBy SearchResult.url (rs.filter (fun r => r.url ∉ seen)) := by
  induction rs generalizing seen with
  | nil => simp [search_and_gather_dedup, keepFirstBy]
  | cons r rs ih =>
    by_cases h : r.url ∈ seen
    · rw [search_and_gather_dedup, if_pos h, List.filter_cons,
        if_neg (by simpa using h)]
      exact ih seen
    · rw [search_and_gather_dedup, if_neg h, List.filter_cons,
        if_pos (by simpa using h), keepFirstBy, ih (r.url :: seen)]
      congr 1
      congr 1
      rw [List.filter_filter]
      apply List.filter_congr
      intro x _
      by_cases hx : x.url = r.url <;> by_cases hs : x.url ∈ seen <;>
        simp [hx, hs]

/-- C1: the merge step of `search_and_gather` keeps the first occurrence of
each url, drops later results with an already-seen url, preserves the relative
order of first occurrences, and the output length is the number of distinct
urls in the input. -/
theorem C1_search_and_gather_dedup_spec (rs : List SearchResult) :
    search_and_gather_dedup rs [] <+ rs ∧
    ((search_and_gather_dedup rs []).map SearchResult.url).Nodup ∧
    (∀ r ∈ search_and_gather_dedup rs [],
      rs.find? (fun x => decide (x.url = r.url)) = some r) ∧
    (∀ r ∈ rs, r.url ∈ (search_and_gather_dedup rs []).map SearchResult.url) ∧
    (search_and_gather_dedup rs []).length = (rs.map SearchResult.url).dedup.length := by
  have hbase : search_and_gather_dedup rs [] = keepFirstBy SearchResult.url rs := by
    rw [search_and_gather_dedup_eq]
    congr 1
    simp
  rw [hbase]
  refine ⟨keepFirstBy_sublist _ rs, keepFirstBy_nodup_key _ rs, ?_, ?_, ?_⟩
  · intro r hr
    exact keepFirstBy_find? _ rs r hr
  · intro r hr
    exact keepFirstBy_mem_key _ rs r hr
  · -- length = number of distinct urls
    have hnd := keepFirstBy_nodup_key SearchResult.url rs
    have hsub := keepFirstBy_sublist SearchResult.url rs
    have hset : ((keepFirstBy SearchResult.url rs).map SearchResult.url).toFinset
        = (rs.map SearchResult.url).toFinset := by
      ext u
      simp only [List.mem_toFinset, List.mem_map]
      constructor
      · rintro ⟨r, hr, rfl⟩
        exact ⟨r, hsub.subset hr, rfl⟩
      · rintro ⟨r, hr, rfl⟩
        rcases List.mem_map.mp (keepFirstBy_mem_key SearchResult.url rs r hr) with
          ⟨r', hr', hu⟩
        exact ⟨r', hr', hu⟩
    have h1 : (keepFirstBy SearchResult.url rs).length
        = ((keepFirstBy SearchResult.url rs).map SearchResult.url).length := by
      simp
    have h2 := List.toFinset_card_of_nodup hnd
    rw [h1, ← h2, hset]
    exact List.card_toFinset _

/-! ### Stable descending sort

The Python builtins `sorted` and `list.sort` with `reverse=True` are
stable sorts by a key, largest key first.  They are modelled by a stable
insertion sort. -/

/-- Insert `x` into `l` after every element whose key is strictly larger,
before the first element whose key is `≤ key x` (so `x` lands after earlier
elements with an equal key: stability). -/
def insertDesc {α β : Type} [LinearOrder β] (key : α → β) (x : α) :
    List α → List α
  | [] => [x]
  | y :: ys => if key x < key y then y :: insertDesc key x ys else x :: y :: ys

/-- Stable sort, largest key first (model of the stable Python `sort` with
`reverse=True`). -/
def sortDesc {α β : Type} [LinearOrder β] (key : α → β) : List α → List α
  | [] => []
  | x :: xs => insertDesc key x (sortDesc key xs)

theorem mem_insertDesc {α β : Type} [LinearOrder β] (key : α → β) (x a : α) :
    ∀ l : List α, a ∈ insertDesc key x l ↔ a = x ∨ a ∈ l := by
  intro l
  induction l with
  | nil => simp [insertDesc]
  | cons y ys ih =>
    rw [insertDesc]
    by_cases h : key x < key y
    · rw [if_pos h]
      simp only [List.mem_cons, ih]
      tauto
    · rw [if_neg h]
      simp only [List.mem_cons]

theorem mem_sortDesc {α β : Type} [LinearOrder β] (key : α → β) (a : α) :
    ∀ l : List α, a ∈ sortDesc key l ↔ a ∈ l := by
  intro l
  induction l with
  | nil => simp [sortDesc]
  | cons x xs ih =>
    rw [sortDesc, mem_insertDesc, ih]
    simp

theorem pairwise_insertDesc {α β : Type} [LinearOrder β] (key : α → β) (x : α)
    (l : List α) (h : l.Pairwise (fun a b => key b ≤ key a)) :
    (insertDesc key x l).Pairwise (fun a b => key b ≤ key a) := by
  induction l with
  | nil => simp [insertDesc]
  | cons y ys ih =>
    rw [insertDesc]
    rcases List.pairwise_cons.mp h with ⟨hy, hys⟩
    by_cases hlt : key x < key y
    · rw [if_pos hlt]
      refine List.pairwise_cons.mpr ⟨?_, ih hys⟩
      intro b hb
      rcases (mem_insertDesc key x b ys).mp hb with rfl | hb'
      · exact le_of_lt hlt
      · exact hy b hb'
    · rw [if_neg hlt]
      have hxy : key y ≤ key x := le_of_not_lt hlt
      refine List.pairwise_cons.mpr ⟨?_, h⟩
      intro b hb
      rcases List.mem_cons.mp hb with rfl | hb'
      · exact hxy
      · exact le_trans (hy b hb') hxy

theorem pairwise_sortDesc {α β : Type} [LinearOrder β] (key : α → β) :
    ∀ l : List α, (sortDesc key l).Pairwise (fun a b => key b ≤ key a) := by
  intro l
  induction l with
  | nil => simp [sortDesc]
  | cons x xs ih => exact pairwise_insertDesc key x _ ih

/-- Stability of the insertion step: restricted to any fixed key value `k`,
inserting `x` either prepends `x` (when `key x = k`) or leaves the
`k`-subsequence unchanged. -/
theorem filter_insertDesc {α β : Type} [LinearOrder β] (key : α → β) (x : α)
    (k : β) :
    ∀ l : List α,
      (insertDesc key x l).filter (fun a => decide (key a = k)) =
        if key x = k then x :: l.filter (fun a => decide (key a = k))
        else l.filter (fun a => decide (key a = k)) := by
  intro l
  induction l with
  | nil =>
    by_cases hx : key x = k <;> simp [insertDesc, List.filter, hx]
  | cons y ys ih =>
    rw [insertDesc]
    by_cases hlt : key x < key y
    · rw [if_pos hlt]
      by_cases hx : key x = k
      · have hy : ¬ key y = k := by
          intro hyk
          rw [hx] at hlt
          rw [hyk] at hlt
          exact lt_irrefl k hlt
        simp [List.filter_cons, ih, hx, hy]
      · simp [List.filter_cons, ih, hx]
    · rw [if_neg hlt]
      by_cases hx : key x = k <;> simp [List.filter_cons, hx]

/-- Stability of the sort: for every key value `k`, the `k`-keyed elements
come out in exactly their input order. -/
theorem filter_sortDesc {α β : Type} [LinearOrder β] (key : α → β) (k : β) :
    ∀ l : List α,
      (sortDesc key l).filter (fun a => decide (key a = k)) =
        l.filter (fun a => decide (key a = k)) := by
  intro l
  induction l with
  | nil => simp [sortDesc]
  | cons x xs ih =>
    rw [sortDesc, filter_insertDesc, ih, List.filter_cons]
    by_cases hx : key x = k
    · rw [if_pos hx, if_pos (by simpa using hx)]
    · rw [if_neg hx, if_neg (by simpa using hx)]

/-! ### String helpers: explicit models of the Python string operations -/

/-- Model of Python `str.lower()` (character-wise lowercasing). -/
def lowerStr (s : String) : String := String.mk (s.data.map Char.toLower)

/-- Characters kept by Python `str.strip()`: drop whitespace from both ends. -/
def stripChars (l : List Char) : List Char :=
  ((l.dropWhile Char.isWhitespace).reverse.dropWhile Char.isWhitespace).reverse

/-- Model of Python `str.strip()`. -/
def strip (s : String) : String := String.mk (stripChars s.data)

/-- Model of Python `str.split(sep)` for a one-character separator: split at
every separator occurrence, keeping empty pieces. -/
def splitOnCharList (sep : Char) : List Char → List (List Char)
  | [] => [[]]
  | c :: cs =>
    if c == sep then [] :: splitOnCharList sep cs
    else
      match splitOnCharList sep cs with
      | [] => [[c]]
      | f :: fs => (c :: f) :: fs

/-- Python `snippet.split` at periods. -/
def splitDot (s : String) : List String :=
  (splitOnCharList '.' s.data).map (fun l => String.mk l)

/-- Maximal runs of characters satisfying `p`; everything between runs is
discarded.  Models the regex word tokenisation (runs of word characters,
filtered later) and the no-argument Python `str.split` (runs of
non-whitespace). -/
def runsBy (p : Char → Bool) : List Char → List (List Char)
  | [] => []
  | [c] => if p c then [[c]] else []
  | c :: c' :: cs =>
    if p c then
      match runsBy p (c' :: cs) with
      | [] => [[c]]
      | r :: rs => if p c' then (c :: r) :: rs else [c] :: r :: rs
    else runsBy p (c' :: cs)

/-- Sentence terminators of the `re.split` pattern, a run of period, bang or
question mark. -/
def isSentTerm (c : Char) : Bool := c == '.' || c == '!' || c == '?'

/-- Model of the `re.split` sentence splitting on the character list: split
at maximal terminator runs, keeping the empty border pieces that `re.split`
produces. -/
def splitTermRunsList : List Char → List (List Char)
  | [] => [[]]
  | [c] => if isSentTerm c then [[], []] else [[c]]
  | c :: c' :: cs =>
    if isSentTerm c then
      if isSentTerm c' then splitTermRunsList (c' :: cs)
      else [] :: splitTermRunsList (c' :: cs)
    else
      match splitTermRunsList (c' :: cs) with
      | [] => [[c]]
      | f :: fs => (c :: f) :: fs

/-- The `re.split` sentence splitting used by `extract_key_points`. -/
def splitSentences (text : String) : List String :=
  (splitTermRunsList text.data).map (fun l => String.mk l)

/-- Model of Python `sep.join(parts)`. -/
def joinWith (sep : String) : List String → String
  | [] => ""
  | [x] => x
  | x :: y :: xs => x ++ sep ++ joinWith sep (y :: xs)

/-- `segPrefixOf n h`: `n` starts `h`. -/
def segPrefixOf : List Char → List Char → Bool
  | [], _ => true
  | _ :: _, [] => false
  | a :: as, b :: bs => a == b && segPrefixOf as bs

/-- `segInfixOf n h`: `n` occurs contiguously inside `h`. -/
def segInfixOf (n : List Char) : List Char → Bool
  | [] => segPrefixOf n []
  | b :: bs => segPrefixOf n (b :: bs) || segInfixOf n bs

/-- Python `needle in hay` on strings. -/
def strContains (hay needle : String) : Bool := segInfixOf needle.data hay.data

theorem segPrefixOf_iff : ∀ n h : List Char, segPrefixOf n h = true ↔ n <+: h := by
  intro n
  induction n with
  | nil =>
    intro h
    simp only [segPrefixOf]
    exact ⟨fun _ => ⟨h, rfl⟩, fun _ => trivial⟩
  | cons a as ih =>
    intro h
    cases h with
    | nil =>
      simp only [segPrefixOf]
      constructor
      · intro hfalse
        cases hfalse
      · rintro ⟨t, ht⟩
        cases ht
    | cons b bs =>
      rw [segPrefixOf, Bool.and_eq_true, beq_iff_eq, ih bs]
      constructor
      · rintro ⟨rfl, t, rfl⟩
        exact ⟨t, rfl⟩
      · rintro ⟨t, ht⟩
        have hab : a = b := (List.cons.injEq _ _ _ _ ▸ ht).1
        have hrest : as ++ t = bs := (List.cons.injEq _ _ _ _ ▸ ht).2
        exact ⟨hab, t, hrest⟩

theorem segInfixOf_iff (n : List Char) :
    ∀ h : List Char, segInfixOf n h = true ↔ n <:+: h := by
  intro h
  induction h with
  | nil =>
    rw [segInfixOf, segPrefixOf_iff]
    constructor
    · rintro ⟨t, ht⟩
      exact ⟨[], t, ht⟩
    · rintro ⟨s, t, hst⟩
      rcases List.append_eq_nil.mp ((List.append_assoc s n t) ▸ hst) with ⟨rfl, h2⟩
      rcases List.append_eq_nil.mp h2 with ⟨rfl, rfl⟩
      exact ⟨[], rfl⟩
  | cons b bs ih =>
    rw [segInfixOf, Bool.or_eq_true, segPrefixOf_iff, ih]
    constructor
    · rintro (⟨t, ht⟩ | ⟨s, t, hst⟩)
      · exact ⟨[], t, ht⟩
      · exact ⟨b :: s, t, by rw [← hst]; rfl⟩
    · rintro ⟨s, t, hst⟩
      cases s with
      | nil => exact Or.inl ⟨t, hst⟩
      | cons c s' =>
        have hb : c = b := (List.cons.injEq _ _ _ _ ▸ hst).1
        have hrest : s' ++ n ++ t = bs := (List.cons.injEq _ _ _ _ ▸ hst).2
        exact Or.inr ⟨s', t, hrest⟩

/-! ### Demo data (`demo_data.py`) -/

/-- `DEMO_SEARCH_RESULTS["default"]`. -/
def demoDefaultResults : List SearchResult :=
  [ { title := "Research Topic Overview",
      url := "https://example.com/overview",
      snippet := "This topic encompasses various aspects including recent developments, practical applications, and future implications. Research shows significant interest and ongoing innovation in this field." },
    { title := "Latest Developments and Trends",
      url := "https://example.com/trends",
      snippet := "Current trends indicate growing adoption and increasing investment. Experts predict continued growth and evolution in the coming years with new applications emerging regularly." },
    { title := "Practical Applications",
      url := "https://example.com/applications",
      snippet := "Real-world implementations demonstrate the value and potential of this technology. Organizations across industries are finding innovative ways to leverage these capabilities for competitive advantage." },
    { title := "Challenges and Considerations",
      url := "https://example.com/challenges",
      snippet := "While promising, this field faces several challenges including technical limitations, ethical concerns, and regulatory questions that need to be addressed." },
    { title := "Future Outlook",
      url := "https://example.com/future",
      snippet := "The future looks bright with continued innovation expected. Researchers and practitioners are optimistic about upcoming breakthroughs and wider adoption." } ]

/-- The `DEMO_SEARCH_RESULTS` dict of `demo_data.py`, in source (insertion)
order: an association list from topic key to canned results. -/
def DEMO_SEARCH_RESULTS : List (String × List SearchResult) :=
  [ ("artificial intelligence in healthcare",
     [ { title := "AI in Healthcare: Transforming Patient Care",
         url := "https://example.com/ai-healthcare-1",
         snippet := "Artificial intelligence is revolutionizing healthcare through improved diagnostics, personalized treatment plans, and predictive analytics. AI algorithms can analyze medical images with accuracy comparable to human radiologists, helping detect diseases like cancer at earlier stages." },
       { title := "Machine Learning Applications in Medicine",
         url := "https://example.com/ai-healthcare-2",
         snippet := "Machine learning models are being used to predict patient outcomes, optimize hospital operations, and assist in drug discovery. These technologies are helping healthcare providers make more informed decisions and improve patient care quality." },
       { title := "The Future of AI-Powered Healthcare",
         url := "https://example.com/ai-healthcare-3",
         snippet := "From virtual health assistants to robotic surgery, AI is expanding the possibilities in healthcare. Recent developments include AI systems that can detect diseases earlier and more accurately than traditional methods, leading to better patient outcomes." },
       { title := "AI Ethics in Medical Practice",
         url := "https://example.com/ai-healthcare-4",
         snippet := "As AI becomes more prevalent in healthcare, ethical considerations around patient privacy, algorithmic bias, and accountability are crucial. Medical professionals and policymakers are working to establish guidelines for responsible AI use." },
       { title := "Real-World AI Healthcare Success Stories",
         url := "https://example.com/ai-healthcare-5",
         snippet := "Healthcare institutions worldwide are reporting significant improvements in patient outcomes using AI. Case studies show reduced diagnosis times, improved treatment accuracy, and better resource allocation in hospitals." } ]),
    ("artificial intelligence",
     [ { title := "Understanding Artificial Intelligence",
         url := "https://example.com/ai-overview",
         snippet := "Artificial Intelligence (AI) refers to computer systems that can perform tasks typically requiring human intelligence. This includes learning, reasoning, problem-solving, and understanding language." },
       { title := "AI Technology Trends 2024",
         url := "https://example.com/ai-trends",
         snippet := "The AI landscape is rapidly evolving with breakthroughs in large language models, computer vision, and autonomous systems. Companies are investing billions in AI research and development." },
       { title := "Applications of AI Across Industries",
         url := "https://example.com/ai-applications",
         snippet := "AI is being applied across healthcare, finance, transportation, education, and entertainment. From chatbots to self-driving cars, AI technologies are transforming how we live and work." } ]),
    ("machine learning",
     [ { title := "Machine Learning Fundamentals",
         url := "https://example.com/ml-basics",
         snippet := "Machine learning is a subset of AI that enables systems to learn and improve from experience without explicit programming. It uses algorithms to identify patterns in data." },
       { title := "Types of Machine Learning",
         url := "https://example.com/ml-types",
         snippet := "The three main types of machine learning are supervised learning, unsupervised learning, and reinforcement learning. Each has different applications and use cases." },
       { title := "Real-World ML Applications",
         url := "https://example.com/ml-applications",
         snippet := "Machine learning powers recommendation systems, fraud detection, image recognition, and natural language processing. Companies use ML to gain insights from large datasets." } ]),
    ("climate change",
     [ { title := "Climate Change: Current State",
         url := "https://example.com/climate-overview",
         snippet := "Global temperatures continue to rise, with 2024 on track to be one of the warmest years on record. Scientists warn of increasing extreme weather events and sea level rise." },
       { title := "Climate Solutions and Mitigation",
         url := "https://example.com/climate-solutions",
         snippet := "Renewable energy, carbon capture, and sustainable practices offer pathways to reduce emissions. Countries are implementing policies to achieve net-zero targets." },
       { title := "Impact on Global Ecosystems",
         url := "https://example.com/climate-impact",
         snippet := "Climate change affects biodiversity, agriculture, and human health. Ecosystems are struggling to adapt to rapid environmental changes." } ]),
    ("quantum computing",
     [ { title := "Introduction to Quantum Computing",
         url := "https://example.com/quantum-intro",
         snippet := "Quantum computers use quantum mechanical phenomena to solve complex problems faster than classical computers. They leverage qubits instead of traditional bits." },
       { title := "Quantum Computing Applications",
         url := "https://example.com/quantum-apps",
         snippet := "Potential applications include cryptography, drug discovery, optimization problems, and materials science. Major tech companies are racing to build practical quantum computers." },
       { title := "Challenges in Quantum Computing",
         url := "https://example.com/quantum-challenges",
         snippet := "Quantum systems are fragile and require extremely low temperatures. Error correction and scaling remain significant technical hurdles." } ]),
    ("default", demoDefaultResults) ]

/-- Python `key.split()`: whitespace-delimited words of a key. -/
def keyWords (key : String) : List String :=
  (runsBy (fun c => !c.isWhitespace) key.data).map (fun l => String.mk l)

/-- The partial-match rule of `get_demo_results`
(`key in query_lower or any(word in query_lower for word in key.split())`). -/
def keyMatches (key queryLower : String) : Bool :=
  strContains queryLower key ||
    (keyWords key).any (fun w => strContains queryLower w)

/-- The lookup loop of `get_demo_results`: scan the table in insertion order,
skip the `"default"` key, return the first match truncated to `max_results`;
fall back to the default results. -/
def demoScan (ql : String) (mr : Nat) :
    List (String × List SearchResult) → List SearchResult
  | [] => demoDefaultResults.take mr
  | (k, rs) :: rest =>
    if k == "default" then demoScan ql mr rest
    else if keyMatches k ql then rs.take mr
    else demoScan ql mr rest

/-- `get_demo_results(query, max_results)` of `demo_data.py`. -/
def get_demo_results (query : String) (max_results : Nat) : List SearchResult :=
  demoScan (lowerStr query) max_results DEMO_SEARCH_RESULTS

theorem demoScan_eq_find? (ql : String) (mr : Nat) :
    ∀ tbl : List (String × List SearchResult),
      demoScan ql mr tbl =
        (match tbl.find? (fun p => p.1 != "default" && keyMatches p.1 ql) with
         | some p => p.2.take mr
         | none => demoDefaultResults.take mr) := by
  intro tbl
  induction tbl with
  | nil => rfl
  | cons p rest ih =>
    obtain ⟨k, rs⟩ := p
    by_cases hd : k = "default"
    · subst hd
      rw [demoScan, if_pos (by simp), List.find?]
      simp only [bne_self_eq_false, Bool.false_and]
      exact ih
    · have hne : (k == "default") = false := by simpa using hd
      rw [demoScan, if_neg (by simp [hd]), List.find?]
      by_cases hm : keyMatches k ql = true
      · rw [if_pos hm]
        have : (k != "default" && keyMatches k ql) = true := by
          simp [bne, hne, hm]
        rw [this]
      · have hm' : keyMatches k ql = false := by simpa using hm
        rw [if_neg (by simp [hm'])]
        have : (k != "default" && keyMatches k ql) = false := by
          simp [hm']
        rw [this]
        exact ih

/-- C3: the offline lookup returns the canned list of the first non-default
key whose text, or any whitespace-delimited word of it, is a substring of the
lowercased query, truncated to `max_results`; with no match it returns the
default list truncated to `max_results`. -/
theorem C3_get_demo_results_spec (query : String) (max_results : Nat) :
    (get_demo_results query max_results =
      (match DEMO_SEARCH_RESULTS.find?
          (fun p => p.1 != "default" && keyMatches p.1 (lowerStr query)) with
       | some p => p.2.take max_results
       | none => demoDefaultResults.take max_results)) ∧
    (∀ key q : String, keyMatches key q = true ↔
      (key.data <:+: q.data ∨ ∃ w ∈ keyWords key, w.data <:+: q.data)) := by
  constructor
  · exact demoScan_eq_find? (lowerStr query) max_results DEMO_SEARCH_RESULTS
  · intro key q
    rw [keyMatches, Bool.or_eq_true, List.any_eq_true]
    rw [strContains, segInfixOf_iff]
    constructor
    · rintro (h | ⟨w, hw, hseg⟩)
      · exact Or.inl h
      · exact Or.inr ⟨w, hw, (segInfixOf_iff w.data q.data).mp hseg⟩
    · rintro (h | ⟨w, hw, hinf⟩)
      · exact Or.inl h
      · exact Or.inr ⟨w, hw, (segInfixOf_iff w.data q.data).mpr hinf⟩

/-! ### `WebSearchTool.search` (`web_search.py`): live/offline mode machine -/

/-- Mutable state of a `WebSearchTool` instance: the configured maximum result
count and the `use_demo` mode flag (`False` = live, `True` = offline). -/
structure WebSearchTool where
  max_results : Nat
  use_demo : Bool
deriving DecidableEq, Repr

/-- Outcome of one `ddgs.text` attempt in the live-search retry loop: a result
page, a rate-limit error, or any other error. -/
inductive SearchOutcome where
  | ok (rs : List SearchResult)
  | rateLimit
  | otherError
deriving DecidableEq, Repr

/-- The `for attempt in range(max_retries)` loop of `WebSearchTool.search`
(web_search.py, lines 50-95), with `max_retries = 3` modelled by a
three-element outcome list; `fallback` is `Config.USE_FALLBACK_ON_ERROR`
(demo data is importable, so `DEMO_AVAILABLE` is true).  A rate-limit error
retries unless it happens on the last attempt, where the tool either switches
itself permanently to demo mode and answers from the demo data, or returns no
results; any other error returns no results at once. -/
def attemptLoop (fallback : Bool) (st : WebSearchTool) (query : String) :
    List SearchOutcome → List SearchResult × WebSearchTool
  | [] => ([], st)
  | o :: rest =>
    match o with
    | .ok rs => (rs, st)
    | .otherError => ([], st)
    | .rateLimit =>
      if rest = [] then
        if fallback then
          (get_demo_results query st.max_results, { st with use_demo := true })
        else ([], st)
      else attemptLoop fallback st query rest

/-- `WebSearchTool.search(query)`: offline mode answers from the demo data
without touching the state; live mode runs the retry loop. -/
def webSearch (fallback : Bool) (st : WebSearchTool) (query : String)
    (outcomes : List SearchOutcome) : List SearchResult × WebSearchTool :=
  if st.use_demo then (get_demo_results query st.max_results, st)
  else attemptLoop fallback st query outcomes

/-- Every canned demo list is non-empty, so the demo lookup is non-empty
whenever at least one result is requested. -/
theorem get_demo_results_ne_nil (query : String) (mr : Nat) (h : 1 ≤ mr) :
    get_demo_results query mr ≠ [] := by
  have hne : ∀ rs : List SearchResult, rs ≠ [] → rs.take mr ≠ [] := by
    intro rs hrs
    rw [ne_eq, List.take_eq_nil_iff]
    push_neg
    exact ⟨by omega, hrs⟩
  rw [get_demo_results, demoScan_eq_find?]
  rcases hfind : DEMO_SEARCH_RESULTS.find?
      (fun p => p.1 != "default" && keyMatches p.1 (lowerStr query)) with _ | p
  · rw [hfind]
    exact hne demoDefaultResults (by simp [demoDefaultResults])
  · rw [hfind]
    have hp : p ∈ DEMO_SEARCH_RESULTS := List.mem_of_find?_eq_some hfind
    have : ∀ q ∈ DEMO_SEARCH_RESULTS, q.2 ≠ [] := by decide
    exact hne p.2 (this p hp)

/-- The attempt loop never clears the `use_demo` flag. -/
theorem attemptLoop_use_demo_mono (fallback : Bool) (st : WebSearchTool)
    (query : String) :
    ∀ outcomes, st.use_demo = true →
      (attemptLoop fallback st query outcomes).2.use_demo = true := by
  intro outcomes h
  induction outcomes with
  | nil => simpa [attemptLoop] using h
  | cons o rest ih =>
    cases o with
    | ok rs => simpa [attemptLoop] using h
    | otherError => simpa [attemptLoop] using h
    | rateLimit =>
      by_cases hr : rest = []
      · subst hr
        by_cases hf : fallback = true
        · simp [attemptLoop, hf]
        · have hf' : fallback = false := by simpa using hf
          simpa [attemptLoop, hf'] using h
      · simpa [attemptLoop, hr] using ih

/-- C2 (counterexample): with `max_results = 0`, three consecutive rate-limit
errors with fallback enabled do flip the flag to offline, but the returned
offline results are empty — refuting the unconditional non-emptiness in the
claim. -/
theorem C2_counterexample :
    (webSearch true ⟨0, false⟩ "qq"
      [.rateLimit, .rateLimit, .rateLimit]).2.use_demo = true ∧
    (webSearch true ⟨0, false⟩ "qq"
      [.rateLimit, .rateLimit, .rateLimit]).1 = [] := by
  constructor <;> rfl

/-- C2 (amended): in live mode, three consecutive rate-limit errors with the
fallback policy enabled switch the flag to offline and return the offline
results for the failed query — non-empty whenever the provider requests at
least one result; once the flag is offline every later call answers from the
offline data with the state unchanged, so no operation resets the flag to
live. -/
theorem C2_mode_fallback_one_way (st : WebSearchTool) (query : String)
    (hlive : st.use_demo = false) (hmr : 1 ≤ st.max_results) :
    (webSearch true st query [.rateLimit, .rateLimit, .rateLimit]).2.use_demo = true ∧
    (webSearch true st query [.rateLimit, .rateLimit, .rateLimit]).1 =
      get_demo_results query st.max_results ∧
    (webSearch true st query [.rateLimit, .rateLimit, .rateLimit]).1 ≠ [] ∧
    (∀ (fallback : Bool) (st' : WebSearchTool) (q : String)
        (outcomes : List SearchOutcome), st'.use_demo = true →
      webSearch fallback st' q outcomes =
        (get_demo_results q st'.max_results, st')) := by
  have hrun : webSearch true st query [.rateLimit, .rateLimit, .rateLimit] =
      (get_demo_results query st.max_results, { st with use_demo := true }) := by
    rw [webSearch, if_neg (by simp [hlive])]
    rfl
  refine ⟨by rw [hrun], by rw [hrun], ?_, ?_⟩
  · rw [hrun]
    exact get_demo_results_ne_nil query st.max_results hmr
  · intro fallback st' q outcomes h
    rw [webSearch, if_pos h]

theorem C2_mode_fallback_one_way_witness :
    (webSearch true ⟨5, false⟩ "qq"
      [.rateLimit, .rateLimit, .rateLimit]).2.use_demo = true :=
  (C2_mode_fallback_one_way ⟨5, false⟩ "qq" rfl (by decide)).1

/-! ### `SearchAgent.generate_search_queries` (`search_agent.py`) -/

/-- Demo-mode query generation (search_agent.py, lines 69-79): a fixed
template, truncated to `num_queries`. -/
def generate_search_queries_demo (topic : String) (num_queries : Nat) :
    List String :=
  [topic, topic ++ " latest developments",
    topic ++ " practical applications"].take num_queries

/-- The exception-path fallback of real-mode query generation
(search_agent.py, line 116): a fixed triple, returned without truncation. -/
def generate_search_queries_fallback (topic : String) : List String :=
  [topic, topic ++ " latest news", topic ++ " applications"]

/-- A string with a non-empty suffix appended is non-empty. -/
theorem append_ne_empty_right (s t : String) (ht : t ≠ "") : s ++ t ≠ "" := by
  intro h
  have hlen := congrArg String.length h
  rw [String.length_append] at hlen
  have h0 : String.length "" = 0 := rfl
  have hzero : t.length = 0 := by omega
  apply ht
  apply String.ext
  rw [List.length_eq_zero.mp hzero]

/-- C4 (counterexample): with `count = 0` the demo path returns the empty
list; the error fallback always has 3 entries, exceeding `count = 1`; and
with an empty topic the first returned query is the empty string. -/
theorem C4_counterexample :
    generate_search_queries_demo "ai" 0 = [] ∧
    (generate_search_queries_fallback "ai").length = 3 ∧
    ¬ (generate_search_queries_fallback "ai").length ≤ 1 ∧
    "" ∈ generate_search_queries_demo "" 3 := by
  refine ⟨rfl, rfl, by decide, ?_⟩
  simp [generate_search_queries_demo]

/-- C4 (amended): for a non-empty topic and `count ≥ 1`, demo-mode query
generation returns a non-empty list of non-empty queries of length at most
`count`; the error fallback returns its fixed triple of non-empty queries,
whose length 3 is not truncated to `count`. -/
theorem C4_generate_queries_amended (topic : String) (count : Nat)
    (htopic : topic ≠ "") (hcount : 1 ≤ count) :
    generate_search_queries_demo topic count ≠ [] ∧
    (generate_search_queries_demo topic count).length ≤ count ∧
    (∀ q ∈ generate_search_queries_demo topic count, q ≠ "") ∧
    (generate_search_queries_fallback topic).length = 3 ∧
    (∀ q ∈ generate_search_queries_fallback topic, q ≠ "") := by
  refine ⟨?_, ?_, ?_, rfl, ?_⟩
  · rw [generate_search_queries_demo, ne_eq, List.take_eq_nil_iff]
    push_neg
    exact ⟨by omega, by simp⟩
  · rw [generate_search_queries_demo, List.length_take]
    exact Nat.min_le_left count _
  · intro q hq
    have hq' := (List.take_sublist count _).subset hq
    rcases List.mem_cons.mp hq' with rfl | hq2
    · exact htopic
    rcases List.mem_cons.mp hq2 with rfl | hq3
    · exact append_ne_empty_right _ _ (by decide)
    rcases List.mem_cons.mp hq3 with rfl | hq4
    · exact append_ne_empty_right _ _ (by decide)
    · cases hq4
  · intro q hq
    rcases List.mem_cons.mp hq with rfl | hq2
    · exact htopic
    rcases List.mem_cons.mp hq2 with rfl | hq3
    · exact append_ne_empty_right _ _ (by decide)
    rcases List.mem_cons.mp hq3 with rfl | hq4
    · exact append_ne_empty_right _ _ (by decide)
    · cases hq4

theorem C4_generate_queries_amended_witness :
    generate_search_queries_demo "ai" 2 ≠ [] ∧
    (generate_search_queries_demo "ai" 2).length ≤ 2 ∧
    (∀ q ∈ generate_search_queries_demo "ai" 2, q ≠ "") ∧
    (generate_search_queries_fallback "ai").length = 3 ∧
    (∀ q ∈ generate_search_queries_fallback "ai", q ≠ "") :=
  C4_generate_queries_amended "ai" 2 (by decide) (by decide)

/-- C5: demo-mode query generation with `count = 3` returns exactly the fixed
triple, and any other `count` returns that triple truncated to `count`. -/
theorem C5_generate_queries_demo_template (topic : String) :
    generate_search_queries_demo topic 3 =
      [topic, topic ++ " latest developments",
        topic ++ " practical applications"] ∧
    ∀ count : Nat, generate_search_queries_demo topic count =
      (generate_search_queries_demo topic 3).take count := by
  exact ⟨rfl, fun _ => rfl⟩

/-! ### `TextProcessor.extract_keywords` (`text_processor.py`, lines 82-110) -/

/-- A regex word character (`\w`): letter, digit or underscore. -/
def isWordChar (c : Char) : Bool := c.isAlphanum || c == '_'

/-- The matches of the `re.findall` word pattern (word-bounded lowercase
letter runs of length at least 4) over the lowercased text: a match is a
maximal run of word characters that consists solely of lowercase letters and
is at least 4 long (a letter run touching a digit or underscore has no word
boundary there, so such a run is never matched). -/
def findLowerWords (text : String) : List String :=
  ((runsBy isWordChar (lowerStr text).data).filter
    (fun r => decide (4 ≤ r.length) && r.all Char.isLower)).map
    (fun r => String.mk r)

/-- The fixed stop-word set of `extract_keywords`. -/
def stop_words : List String :=
  ["that", "this", "with", "from", "have", "been",
   "will", "their", "there", "what", "when", "where",
   "which", "while", "who", "would", "could", "should"]

/-- One Python dict update `word_freq[word] = word_freq.get(word, 0) + 1` on
an insertion-ordered association list. -/
def bumpCount : List (String × Nat) → String → List (String × Nat)
  | [], w => [(w, 1)]
  | (k, c) :: rest, w =>
    if k = w then (k, c + 1) :: rest else (k, c) :: bumpCount rest w

/-- The non-stop-word token stream that `extract_keywords` counts (the loop
skips words in `stop_words` before bumping the dict). -/
def keywordTokens (text : String) : List String :=
  (findLowerWords text).filter (fun w => w ∉ stop_words)

/-- `extract_keywords(text, top_n)`: tokenise the lowercased text, drop stop
words, count frequencies in an insertion-ordered dict, sort by frequency
descending with the stable Python sort, return the first `top_n` words. -/
def extract_keywords (text : String) (top_n : Nat) : List String :=
  ((sortDesc Prod.snd ((keywordTokens text).foldl bumpCount [])).take
    top_n).map Prod.fst

example : findLowerWords "Cats and dogs, cats& dogs2 o_k catss" =
    ["cats", "dogs", "cats", "catss"] := by decide
example : extract_keywords "century house; century walls. that that" 2 =
    ["century", "house"] := by decide
example : extract_keywords "bbbb cccc cccc aaaa bbbb" 9 =
    ["bbbb", "cccc", "aaaa"] := by decide

theorem infix_cons_extend {α : Type} (a : α) (l t : List α) (h : l <:+: t) :
    l <:+: a :: t := by
  obtain ⟨s, u, hs⟩ := h
  refine ⟨a :: s, u, ?_⟩
  show a :: (s ++ l ++ u) = a :: t
  rw [hs]

theorem infix_of_prefix_seg {α : Type} (l t : List α) (h : l <+: t) :
    l <:+: t := by
  obtain ⟨u, hu⟩ := h
  exact ⟨[], u, by simpa using hu⟩

/-- Every run produced by `runsBy` occurs contiguously in the input, and when
the input starts with a matching character the first run starts the input. -/
theorem runsBy_infix_strong (p : Char → Bool) :
    ∀ l : List Char,
      (∀ r ∈ runsBy p l, r <:+: l) ∧
      (∀ c cs, l = c :: cs → p c = true →
        ∃ t rs, runsBy p l = (c :: t) :: rs ∧ t <+: cs ∧ ∀ x ∈ rs, x <:+: cs) := by
  intro l
  induction l using runsBy.induct p with
  | case1 =>
    constructor
    · intro r hr
      simp [runsBy] at hr
    · intro c cs hl
      exact absurd hl (by simp)
  | case2 c h =>
    constructor
    · intro r hr
      simp only [runsBy, if_pos h, List.mem_singleton] at hr
      subst hr
      exact ⟨[], [], by simp⟩
    · intro c0 cs0 hl hp0
      injection hl with h1 h2
      subst h1
      subst h2
      exact ⟨[], [], by simp [runsBy, h], ⟨[], rfl⟩, by simp⟩
  | case3 c h =>
    constructor
    · intro r hr
      simp [runsBy, h] at hr
    · intro c0 cs0 hl hp0
      injection hl with h1 h2
      subst h1
      exact absurd hp0 h
  | case4 c c' cs h hm ih =>
    have hres : runsBy p (c :: c' :: cs) = [[c]] := by
      simp [runsBy, h, hm]
    constructor
    · intro r hr
      rw [hres, List.mem_singleton] at hr
      subst hr
      exact infix_of_prefix_seg _ _ ⟨c' :: cs, rfl⟩
    · intro c0 cs0 hl hp0
      injection hl with h1 h2
      subst h1
      subst h2
      exact ⟨[], [], hres, ⟨c' :: cs, rfl⟩, by simp⟩
  | case5 c c' cs h r rs hm hp ih =>
    obtain ⟨t, rs', heq, hpref, hinf⟩ := ih.2 c' cs rfl hp
    have hcomb := hm.symm.trans heq
    injection hcomb with hr hrs
    subst hr
    subst hrs
    have hres : runsBy p (c :: c' :: cs) = (c :: c' :: t) :: rs := by
      simp [runsBy, h, hm, hp]
    obtain ⟨u, hu⟩ := hpref
    constructor
    · intro x hx
      rw [hres] at hx
      rcases List.mem_cons.mp hx with rfl | hx'
      · refine infix_of_prefix_seg _ _ ⟨u, ?_⟩
        show c :: c' :: (t ++ u) = c :: c' :: cs
        rw [hu]
      · exact infix_cons_extend c _ _ (infix_cons_extend c' _ _ (hinf x hx'))
    · intro c0 cs0 hl hp0
      injection hl with h1 h2
      subst h1
      subst h2
      refine ⟨c' :: t, rs, hres, ⟨u, ?_⟩, ?_⟩
      · show c' :: (t ++ u) = c' :: cs
        rw [hu]
      · intro x hx
        exact infix_cons_extend c' _ _ (hinf x hx)
  | case6 c c' cs h r rs hm hp ih =>
    have hres : runsBy p (c :: c' :: cs) = [c] :: r :: rs := by
      simp [runsBy, h, hm, hp]
    have hsub : ∀ x ∈ r :: rs, x <:+: c' :: cs := by
      intro x hx
      exact ih.1 x (hm ▸ hx)
    constructor
    · intro x hx
      rw [hres] at hx
      rcases List.mem_cons.mp hx with rfl | hx'
      · exact infix_of_prefix_seg _ _ ⟨c' :: cs, rfl⟩
      · exact infix_cons_extend c _ _ (hsub x hx')
    · intro c0 cs0 hl hp0
      injection hl with h1 h2
      subst h1
      subst h2
      exact ⟨[], r :: rs, hres, ⟨c' :: cs, rfl⟩, hsub⟩
  | case7 c c' cs h ih =>
    have hres : runsBy p (c :: c' :: cs) = runsBy p (c' :: cs) := by
      simp [runsBy, h]
    constructor
    · intro x hx
      rw [hres] at hx
      exact infix_cons_extend c _ _ (ih.1 x hx)
    · intro c0 cs0 hl hp0
      injection hl with h1 h2
      subst h1
      exact absurd hp0 h

/-- Reference form of the insertion-ordered frequency dict: the first word
carries its total count, later distinct words follow recursively. -/
def freqList : List String → List (String × Nat)
  | [] => []
  | w :: ws => (w, 1 + ws.count w) :: freqList (ws.filter (fun x => x ≠ w))
termination_by l => l.length
decreasing_by
  simp only [List.length_cons]
  exact Nat.lt_succ_of_le (List.length_filter_le _ _)

theorem foldl_bumpCount_cons (k : String) :
    ∀ (ws : List String) (c : Nat) (tbl : List (String × Nat)),
      ws.foldl bumpCount ((k, c) :: tbl) =
        (k, c + ws.count k) :: (ws.filter (fun x => x ≠ k)).foldl bumpCount tbl := by
  intro ws
  induction ws with
  | nil =>
    intro c tbl
    simp
  | cons w ws ih =>
    intro c tbl
    rw [List.foldl_cons]
    by_cases hw : k = w
    · subst hw
      rw [show bumpCount ((k, c) :: tbl) k = (k, c + 1) :: tbl by
        simp [bumpCount]]
      rw [ih (c + 1) tbl]
      have hcount : (k :: ws).count k = ws.count k + 1 := List.count_cons_self k ws
      have hfilter : (k :: ws).filter (fun x => x ≠ k) =
          ws.filter (fun x => x ≠ k) := by
        simp [List.filter_cons]
      rw [hcount, hfilter]
      congr 1
      have : c + 1 + ws.count k = c + (ws.count k + 1) := by omega
      rw [this]
    · rw [show bumpCount ((k, c) :: tbl) w = (k, c) :: bumpCount tbl w by
        simp [bumpCount, hw]]
      rw [ih c (bumpCount tbl w)]
      have hcount : (w :: ws).count k = ws.count k :=
        List.count_cons_of_ne hw ws
      have hwk : w ≠ k := fun h => hw h.symm
      have hfilter : (w :: ws).filter (fun x => x ≠ k) =
          w :: ws.filter (fun x => x ≠ k) := by
        simp [List.filter_cons, hwk]
      rw [hcount, hfilter, List.foldl_cons]

theorem foldl_bumpCount_eq_freqList :
    ∀ ws : List String, ws.foldl bumpCount [] = freqList ws := by
  intro ws
  induction ws using freqList.induct with
  | case1 => simp [freqList]
  | case2 w ws ih =>
    rw [List.foldl_cons, show bumpCount [] w = [(w, 1)] from rfl,
      foldl_bumpCount_cons w ws 1 [], ih, freqList]

theorem freqList_entries :
    ∀ ws : List String, ∀ pr ∈ freqList ws, pr.1 ∈ ws ∧ pr.2 = ws.count pr.1 := by
  intro ws
  induction ws using freqList.induct with
  | case1 => simp [freqList]
  | case2 w ws ih =>
    intro pr hpr
    rw [freqList] at hpr
    rcases List.mem_cons.mp hpr with rfl | h
    · exact ⟨List.mem_cons_self w ws, by simp [List.count_cons_self]; omega⟩
    · obtain ⟨hmem, hcnt⟩ := ih pr h
      obtain ⟨hmem', hpred⟩ := List.mem_filter.mp hmem
      have hne : pr.1 ≠ w := by simpa using hpred
      refine ⟨List.mem_cons_of_mem w hmem', ?_⟩
      rw [hcnt, List.count_filter (by simpa using hne),
        List.count_cons_of_ne hne ws]

theorem freqList_map_fst :
    ∀ ws : List String, (freqList ws).map Prod.fst = keepFirstBy id ws := by
  intro ws
  induction ws using freqList.induct with
  | case1 => simp [freqList, keepFirstBy]
  | case2 w ws ih =>
    rw [freqList, List.map_cons, keepFirstBy]
    exact congrArg (w :: ·) ih

theorem sortDesc_tbl_entries (text : String) :
    ∀ pr ∈ sortDesc Prod.snd ((keywordTokens text).foldl bumpCount []),
      pr.1 ∈ keywordTokens text ∧ pr.2 = (keywordTokens text).count pr.1 := by
  intro pr hpr
  have hpr2 : pr ∈ (keywordTokens text).foldl bumpCount [] :=
    (mem_sortDesc Prod.snd pr _).mp hpr
  rw [foldl_bumpCount_eq_freqList] at hpr2
  exact freqList_entries _ pr hpr2

/-- C6: `extract_keywords` returns at most `top_n` strings, each a lowercase
alphabetic token of length at least 4 occurring contiguously in the lowercased
text and not a stop word, ordered by descending occurrence frequency; within
one frequency value the words keep their first-encountered order (they form a
subsequence of the first-occurrence ordering of the token stream). -/
theorem C6_extract_keywords_spec (text : String) (top_n : Nat) :
    (extract_keywords text top_n).length ≤ top_n ∧
    (∀ w ∈ extract_keywords text top_n,
      w ∉ stop_words ∧ 4 ≤ w.length ∧ w.data.all Char.isLower = true ∧
      w.data <:+: (lowerStr text).data) ∧
    ((extract_keywords text top_n).map
      (fun w => (keywordTokens text).count w)).Pairwise (fun a b => b ≤ a) ∧
    (∀ k : Nat, (extract_keywords text top_n).filter
        (fun w => decide ((keywordTokens text).count w = k)) <+
      keepFirstBy id (keywordTokens text)) := by
  refine ⟨?_, ?_, ?_, ?_⟩
  · rw [extract_keywords, List.length_map, List.length_take]
    exact Nat.min_le_left _ _
  · intro w hw
    rw [extract_keywords] at hw
    obtain ⟨pr, hpr, rfl⟩ := List.mem_map.mp hw
    have hpr' : pr ∈ sortDesc Prod.snd ((keywordTokens text).foldl bumpCount []) :=
      (List.take_sublist _ _).subset hpr
    obtain ⟨hmem, _⟩ := sortDesc_tbl_entries text pr hpr'
    obtain ⟨htok, hstop⟩ := List.mem_filter.mp hmem
    rw [findLowerWords] at htok
    obtain ⟨r, hr, hmk⟩ := List.mem_map.mp htok
    obtain ⟨hrr, hcond⟩ := List.mem_filter.mp hr
    rw [Bool.and_eq_true, decide_eq_true_eq] at hcond
    refine ⟨by simpa using hstop, ?_, ?_, ?_⟩
    · rw [← hmk]
      exact hcond.1
    · rw [← hmk]
      exact hcond.2
    · rw [← hmk]
      exact (runsBy_infix_strong isWordChar (lowerStr text).data).1 r hrr
  · rw [extract_keywords, List.map_map, List.pairwise_map]
    have hpw := pairwise_sortDesc Prod.snd ((keywordTokens text).foldl bumpCount [])
    have hpw' := hpw.imp_of_mem (S := fun a b =>
        (keywordTokens text).count b.1 ≤ (keywordTokens text).count a.1) ?_
    · exact hpw'.sublist (List.take_sublist _ _)
    · intro a b ha hb hab
      rw [← (sortDesc_tbl_entries text a ha).2, ← (sortDesc_tbl_entries text b hb).2]
      exact hab
  · intro k
    rw [extract_keywords, List.filter_map]
    have h1 : (((sortDesc Prod.snd ((keywordTokens text).foldl bumpCount [])).take
          top_n).filter
        ((fun w => decide ((keywordTokens text).count w = k)) ∘ Prod.fst)) <+
        ((sortDesc Prod.snd ((keywordTokens text).foldl bumpCount [])).filter
        ((fun w => decide ((keywordTokens text).count w = k)) ∘ Prod.fst)) :=
      (List.take_sublist _ _).filter _
    have h2 : ((sortDesc Prod.snd ((keywordTokens text).foldl bumpCount [])).filter
        ((fun w => decide ((keywordTokens text).count w = k)) ∘ Prod.fst)) =
        ((sortDesc Prod.snd ((keywordTokens text).foldl bumpCount [])).filter
        (fun pr => decide (pr.2 = k))) := by
      apply List.filter_congr
      intro pr hpr
      show decide ((keywordTokens text).count pr.1 = k) = decide (pr.2 = k)
      rw [(sortDesc_tbl_entries text pr hpr).2]
    have h3 := filter_sortDesc Prod.snd k ((keywordTokens text).foldl bumpCount [])
    have h4 : ((keywordTokens text).foldl bumpCount []).filter
        (fun pr => decide (pr.2 = k)) <+ (keywordTokens text).foldl bumpCount [] :=
      List.filter_sublist _
    have hsub : (((sortDesc Prod.snd ((keywordTokens text).foldl bumpCount [])).take
          top_n).filter
        ((fun w => decide ((keywordTokens text).count w = k)) ∘ Prod.fst)) <+
        (keywordTokens text).foldl bumpCount [] := by
      rw [h2] at h1
      rw [h3] at h1
      exact h1.trans h4
    have hmap := hsub.map Prod.fst
    have hkeys : ((keywordTokens text).foldl bumpCount []).map Prod.fst =
        keepFirstBy id (keywordTokens text) := by
      rw [foldl_bumpCount_eq_freqList, freqList_map_fst]
    rw [hkeys] at hmap
    exact hmap

/-! ### `TextProcessor.extract_key_points` (`text_processor.py`, lines 7-36) -/

/-- The candidate sentences: split on terminator runs, strip whitespace, keep
only fragments strictly longer than 20 characters
(`[s.strip() for s in sentences if len(s.strip()) > 20]`). -/
def candidateSentences (text : String) : List String :=
  ((splitSentences text).map strip).filter (fun s => 20 < s.length)

/-- The scored pairs of `extract_key_points`: the first `2*max_points`
candidates, each paired with
`(1 - i/total_sentences) * 0.6 + min(len/100, 1.0) * 0.4`, in exact rational
arithmetic (`total_sentences` is the full candidate count). -/
def scoredSentences (text : String) (max_points : Nat) : List (String × ℚ) :=
  ((candidateSentences text).take (max_points * 2)).enum.map
    (fun p => (p.2,
      (1 - (p.1 : ℚ) / ((candidateSentences text).length : ℚ)) * (6 / 10) +
        (min ((p.2.length : ℚ) / 100) 1) * (4 / 10)))

/-- `extract_key_points(text, max_points)`: stable-sort the scored sentences
by score descending, return the first `max_points` sentences. -/
def extract_key_points (text : String) (max_points : Nat) : List String :=
  ((sortDesc Prod.snd (scoredSentences text max_points)).take max_points).map
    Prod.fst

example : candidateSentences
    "Short one. This sentence is long enough to be kept here. No!" =
    ["This sentence is long enough to be kept here"] := by decide

/-- C7 (counterexample): a stripped fragment of exactly 20 characters is
discarded by the strict `> 20` check of the code, so it is no candidate and the
result is empty, while the claim says 20-character fragments are kept. -/
theorem C7_counterexample :
    ("aaaaaaaaaaaaaaaaaaaa" : String).length = 20 ∧
    "aaaaaaaaaaaaaaaaaaaa" ∈ (splitSentences "aaaaaaaaaaaaaaaaaaaa.").map strip ∧
    extract_key_points "aaaaaaaaaaaaaaaaaaaa." 5 = [] := by
  refine ⟨rfl, by decide, by decide⟩

/-- C7 (amended): `extract_key_points` splits on terminator runs, strips the
fragments, keeps only fragments strictly longer than 20 characters as
candidates, scores the first `2*max_points` of them as
`(1 - index/total) * 0.6 + min(length/100, 1) * 0.4`, sorts by score
descending with a stable tie-break, and returns at most `max_points`
sentences, never one of 20 characters or fewer. -/
theorem C7_extract_key_points_spec (text : String) (max_points : Nat) :
    (extract_key_points text max_points).length ≤ max_points ∧
    (∀ s ∈ extract_key_points text max_points,
      s ∈ (splitSentences text).map strip ∧ 20 < s.length) ∧
    extract_key_points text max_points =
      ((sortDesc Prod.snd (scoredSentences text max_points)).take
        max_points).map Prod.fst ∧
    ((sortDesc Prod.snd (scoredSentences text max_points)).map
      Prod.snd).Pairwise (fun a b => b ≤ a) ∧
    (∀ k : ℚ, (sortDesc Prod.snd (scoredSentences text max_points)).filter
        (fun pr => decide (pr.2 = k)) =
      (scoredSentences text max_points).filter (fun pr => decide (pr.2 = k))) := by
  refine ⟨?_, ?_, rfl, ?_, ?_⟩
  · rw [extract_key_points, List.length_map, List.length_take]
    exact Nat.min_le_left _ _
  · intro s hs
    rw [extract_key_points] at hs
    obtain ⟨pr, hpr, rfl⟩ := List.mem_map.mp hs
    have hpr' : pr ∈ sortDesc Prod.snd (scoredSentences text max_points) :=
      (List.take_sublist _ _).subset hpr
    have hpr2 : pr ∈ scoredSentences text max_points :=
      (mem_sortDesc Prod.snd pr _).mp hpr'
    rw [scoredSentences] at hpr2
    obtain ⟨q, hq, rfl⟩ := List.mem_map.mp hpr2
    have hq2 : q.2 ∈ ((candidateSentences text).take (max_points * 2)).enum.map
        Prod.snd := List.mem_map_of_mem Prod.snd hq
    rw [List.enum_map_snd] at hq2
    have hq3 : q.2 ∈ candidateSentences text :=
      (List.take_sublist _ _).subset hq2
    obtain ⟨hmem, hlen⟩ := List.mem_filter.mp hq3
    exact ⟨hmem, by simpa using hlen⟩
  · exact List.pairwise_map.mpr (pairwise_sortDesc Prod.snd _)
  · intro k
    exact filter_sortDesc Prod.snd k _

/-! ### `AnalyzerAgent._synthesize_insights`, demo mode
(`analyzer_agent.py`, lines 80-113) -/

/-- The overview/key_findings/implications triple returned by the analyzer. -/
structure Insights where
  overview : String
  key_findings : String
  implications : String
deriving DecidableEq, Repr

/-- The demo overview: the first period-delimited piece of each of the first
3 snippets, a period re-appended, joined by single spaces. -/
def demoOverview (results : List SearchResult) : String :=
  joinWith " " ((results.take 3).map
    (fun r => ((splitDot r.snippet).headD "") ++ "."))

/-- The demo key-findings bullets: for each of the first 4 results, the first
fragment of its snippet whose stripped form is longer than 30 characters,
stripped, with a trailing period and a bullet prefixed; results with no such
fragment contribute nothing. -/
def demoKeyFindings (results : List SearchResult) : List String :=
  (results.take 4).filterMap (fun r =>
    (((splitDot r.snippet).filter
        (fun s => 30 < (strip s).length)).map
      (fun s => strip s ++ ".")).head?.map (fun b => "• " ++ b))

/-- The fixed implications paragraph. -/
def demoImplications (topic : String) : String :=
  "The research on " ++ topic ++
    " shows significant developments and practical applications. " ++
    "Organizations are increasingly adopting these technologies to improve efficiency and outcomes. " ++
    "Continued innovation in this field is expected to drive further advancements."

/-- Demo-mode `_synthesize_insights(topic, content, results)`: empty overview
or key-findings text falls back to generic sentences (Python truthiness on
strings). -/
def synthesize_insights_demo (topic : String) (results : List SearchResult) :
    Insights :=
  { overview := if demoOverview results = "" then
      "Research on " ++ topic ++
        " reveals multiple important aspects and developments."
    else demoOverview results,
    key_findings := if joinWith "\n" (demoKeyFindings results) = "" then
      "Various perspectives and applications identified in the research."
    else joinWith "\n" (demoKeyFindings results),
    implications := demoImplications topic }

/-- A string with a non-empty prefix is non-empty. -/
theorem append_ne_empty_left (s t : String) (hs : s ≠ "") : s ++ t ≠ "" := by
  intro h
  have hlen := congrArg String.length h
  rw [String.length_append] at hlen
  have h0 : String.length "" = 0 := rfl
  have hzero : s.length = 0 := by omega
  apply hs
  apply String.ext
  rw [List.length_eq_zero.mp hzero]

/-- C8: in demo mode, the three insight fields are non-empty for every topic
and every results list, including the empty list. -/
theorem C8_synthesize_insights_nonempty (topic : String)
    (results : List SearchResult) :
    (synthesize_insights_demo topic results).overview ≠ "" ∧
    (synthesize_insights_demo topic results).key_findings ≠ "" ∧
    (synthesize_insights_demo topic results).implications ≠ "" := by
  refine ⟨?_, ?_, ?_⟩
  · show (if demoOverview results = "" then _ else _) ≠ _
    by_cases h : demoOverview results = ""
    · rw [if_pos h]
      exact append_ne_empty_left _ _ (append_ne_empty_left _ _ (by decide))
    · rw [if_neg h]
      exact h
  · show (if joinWith "\n" (demoKeyFindings results) = "" then _ else _) ≠ _
    by_cases h : joinWith "\n" (demoKeyFindings results) = ""
    · rw [if_pos h]
      decide
    · rw [if_neg h]
      exact h
  · show demoImplications topic ≠ ""
    rw [demoImplications]
    exact append_ne_empty_left _ _ (append_ne_empty_left _ _
      (append_ne_empty_left _ _ (append_ne_empty_left _ _ (by decide))))

/-- The head of `l.filter p` is the first `p`-element of `l`. -/
theorem head?_filter_eq_find? {α : Type} (p : α → Bool) :
    ∀ l : List α, (l.filter p).head? = l.find? p := by
  intro l
  induction l with
  | nil => rfl
  | cons a l ih =>
    by_cases h : p a = true
    · rw [List.filter_cons, if_pos h, List.find?_cons_of_pos _ h, List.head?_cons]
    · have h' : p a = false := by simpa using h
      rw [List.filter_cons, if_neg (by simp [h']),
        List.find?_cons_of_neg _ (by simp [h'])]
      exact ih

theorem joinWith_cons_ne_empty (sep x : String) (xs : List String)
    (hx : x ≠ "") : joinWith sep (x :: xs) ≠ "" := by
  cases xs with
  | nil => simpa [joinWith] using hx
  | cons y ys =>
    rw [joinWith]
    exact append_ne_empty_left _ _ (append_ne_empty_left _ _ hx)

/-- Every demo key-findings entry is a bullet. -/
theorem demoKeyFindings_mem (results : List SearchResult) :
    ∀ x ∈ demoKeyFindings results, ∃ b, x = "• " ++ b := by
  intro x hx
  rw [demoKeyFindings] at hx
  obtain ⟨r, _, hr⟩ := List.mem_filterMap.mp hx
  obtain ⟨b, _, hb⟩ := Option.map_eq_some'.mp hr
  exact ⟨b, hb.symm⟩

/-- C9 (amended): the demo key-findings text is the newline-joined bulleted
list holding, for each of the first 4 results whose snippet has a fragment of
stripped length strictly greater than 30, the first such fragment (stripped,
with a period); results without one contribute nothing, and with no bullet at
all the generic fallback text is used. -/
theorem C9_key_findings_spec (topic : String) (results : List SearchResult) :
    (synthesize_insights_demo topic results).key_findings =
      (if ((results.take 4).filterMap (fun r =>
            ((splitDot r.snippet).find?
              (fun s => decide (30 < (strip s).length))).map
              (fun s => "• " ++ (strip s ++ ".")))) = []
       then "Various perspectives and applications identified in the research."
       else joinWith "\n" ((results.take 4).filterMap (fun r =>
            ((splitDot r.snippet).find?
              (fun s => decide (30 < (strip s).length))).map
              (fun s => "• " ++ (strip s ++ "."))))) := by
  have hlist : demoKeyFindings results =
      (results.take 4).filterMap (fun r =>
        ((splitDot r.snippet).find?
          (fun s => decide (30 < (strip s).length))).map
          (fun s => "• " ++ (strip s ++ "."))) := by
    rw [demoKeyFindings]
    congr 1
    funext r
    rw [List.head?_map, head?_filter_eq_find?, Option.map_map]
    rfl
  show (if joinWith "\n" (demoKeyFindings results) = "" then _ else _) = _
  rw [← hlist]
  by_cases h : demoKeyFindings results = []
  · rw [h]
    rw [if_pos (by rfl : joinWith "\n" ([] : List String) = "")]
    rw [if_pos rfl]
  · obtain ⟨x, xs, hxxs⟩ := List.exists_cons_of_ne_nil h
    have hx : x ≠ "" := by
      obtain ⟨b, hb⟩ := demoKeyFindings_mem results x (by rw [hxxs]; simp)
      rw [hb]
      exact append_ne_empty_left _ _ (by decide)
    rw [hxxs]
    rw [if_neg (joinWith_cons_ne_empty "\n" x xs hx)]
    rw [if_neg (by simp)]

/-- A snippet whose single fragment strips to exactly 30 characters. -/
def c9snippet : String := "aaaaaaaaaaaaaaaaaaaaaaaaaaaaaa"

/-- C9 (counterexample): a snippet with a fragment of exactly 30 characters
(at least 30, as the claim reads) yields no bullet — the code checks strictly
more than 30 — so the fallback text is returned instead of a bulleted list. -/
theorem C9_counterexample :
    (strip c9snippet).length = 30 ∧
    splitDot c9snippet = [c9snippet] ∧
    (synthesize_insights_demo "t"
      [{ title := "T", url := "u", snippet := c9snippet }]).key_findings =
      "Various perspectives and applications identified in the research." := by
  refine ⟨rfl, rfl, rfl⟩

/-! ### `AnalyzerAgent.analyze_sources` key-point assembly
(`analyzer_agent.py`, lines 49-53) -/

/-- The key-point loop of `analyze_sources`: up to 2 key points from each of
the first 5 results, concatenated. -/
def analyze_sources_key_points (results : List SearchResult) : List String :=
  ((results.take 5).map (fun r => extract_key_points r.snippet 2)).flatten

/-- C10: `analyze_sources` builds its `key_points` from the first 5 results
only, at most 2 points per result, so at most 10 key points overall. -/
theorem C10_key_points_bound (results : List SearchResult) :
    (analyze_sources_key_points results).length ≤ 10 ∧
    analyze_sources_key_points results =
      analyze_sources_key_points (results.take 5) ∧
    (∀ r : SearchResult, (extract_key_points r.snippet 2).length ≤ 2) := by
  have hpoint : ∀ r : SearchResult, (extract_key_points r.snippet 2).length ≤ 2 := by
    intro r
    rw [extract_key_points, List.length_map, List.length_take]
    exact Nat.min_le_left _ _
  refine ⟨?_, ?_, hpoint⟩
  · rw [analyze_sources_key_points, List.length_flatten]
    have hbound : ∀ n ∈ ((results.take 5).map
        (fun r => extract_key_points r.snippet 2)).map List.length, n ≤ 2 := by
      intro n hn
      obtain ⟨l, hl, rfl⟩ := List.mem_map.mp hn
      obtain ⟨r, _, rfl⟩ := List.mem_map.mp hl
      exact hpoint r
    have hsum := List.sum_le_card_nsmul _ 2 hbound
    have hlen : (((results.take 5).map
        (fun r => extract_key_points r.snippet 2)).map List.length).length ≤ 5 := by
      rw [List.length_map, List.length_map, List.length_take]
      exact Nat.min_le_left _ _
    rw [smul_eq_mul] at hsum
    calc (((results.take 5).map
        (fun r => extract_key_points r.snippet 2)).map List.length).sum
        ≤ _ * 2 := hsum
      _ ≤ 5 * 2 := Nat.mul_le_mul_right 2 hlen
      _ = 10 := rfl
  · simp [analyze_sources_key_points, List.take_take]
